import Mathlib

/-!
Verification of the appbase priority task scheduler and plugin lifecycle
orchestrator against its specification.

The embedding follows the sources:
  - src/include/appbase/default_executor.hpp : the executor and its
    per-instance sequence counter (a plain std::size_t member named order,
    initialized to the maximum size_t value and pre-decremented on each post).
  - src/tests/basic_test.cpp : the concrete plugins pluginA and pluginB,
    their option handling and shutdown behaviour.
Machine integers are modelled as Nat with explicit reduction modulo 2^64
where overflow matters.  Components of the repository whose headers are not
in the source tree (the execution priority queue, the application controller
and the scoped application wrapper) are modelled from the specification;
each such definition carries a doc comment saying so.
-/

/-- 2^64, the modulus of std::size_t on the target platform. -/
def USIZE : Nat := 2 ^ 64

/-- numeric_limits of size_t: the initial value of the order counter. -/
def SIZE_MAX : Nat := USIZE - 1

/-- The state of a default_executor: its per-instance sequence counter
(src/include/appbase/default_executor.hpp line 49,
`std::size_t order = std::numeric_limits of size_t :: max()`). -/
structure default_executor where
  order : Nat

/-- A freshly constructed default_executor: the member initializer sets
order to the maximum size_t value. -/
def default_executor.mk0 : default_executor := ⟨SIZE_MAX⟩

/-- The value `--order` produces: pre-decrement of a size_t,
i.e. subtraction of one modulo 2^64. -/
def postVal (e : default_executor) : Nat := (e.order + (USIZE - 1)) % USIZE

/-- The executor state after one post (the decremented counter is stored
back into the member). -/
def postStep (e : default_executor) : default_executor := ⟨postVal e⟩

/-- The executor state after k posts from a fresh instance. -/
def execAfter : Nat → default_executor
  | 0 => default_executor.mk0
  | k + 1 => postStep (execAfter k)

/-- The sequence number handed to the k-th post (0-indexed) of a fresh
default_executor instance: `--order` evaluated in `post`. -/
def nthSeq (k : Nat) : Nat := postVal (execAfter k)

/-- k further posts starting from an arbitrary executor state. -/
def stepN : default_executor → Nat → default_executor
  | e, 0 => e
  | e, k + 1 => postStep (stepN e k)

/-- The sequence number handed to the k-th post (0-indexed) performed on an
executor currently in state e. -/
def nthSeqFrom (e : default_executor) (k : Nat) : Nat := postVal (stepN e k)

theorem USIZE_pos : 0 < USIZE := by norm_num [USIZE]

theorem stepN_mk0 (k : Nat) : stepN default_executor.mk0 k = execAfter k := by
  induction k with
  | zero => rfl
  | succ n ih => show postStep (stepN default_executor.mk0 n) = _; rw [ih]; rfl

theorem execAfter_order (k : Nat) (hk : k ≤ USIZE - 1) :
    (execAfter k).order = USIZE - 1 - k := by
  induction k with
  | zero => rfl
  | succ n ih =>
    have hn : n ≤ USIZE - 1 := Nat.le_of_succ_le hk
    have hlt : n + 1 ≤ USIZE - 1 := hk
    have h1 : USIZE - 1 - n + (USIZE - 1) = USIZE + (USIZE - 1 - (n + 1)) := by
      have : (2 : Nat) ^ 64 = USIZE := rfl
      omega
    show postVal (execAfter n) = USIZE - 1 - (n + 1)
    rw [postVal, ih hn, h1, Nat.add_mod_left, Nat.mod_eq_of_lt]
    have hU : 0 < USIZE := USIZE_pos
    omega

theorem nthSeq_eq (k : Nat) (hk : k ≤ USIZE - 2) :
    nthSeq k = USIZE - 2 - k := by
  have hk1 : k ≤ USIZE - 1 := by omega
  have h1 : USIZE - 1 - k + (USIZE - 1) = USIZE + (USIZE - 2 - k) := by
    have : (2 : Nat) ^ 64 = USIZE := rfl
    omega
  rw [nthSeq, postVal, execAfter_order k hk1, h1, Nat.add_mod_left,
    Nat.mod_eq_of_lt]
  have hU : 0 < USIZE := USIZE_pos
  omega

theorem nthSeq_strict_anti {i j : Nat} (hij : i < j) (hj : j ≤ USIZE - 2) :
    nthSeq j < nthSeq i := by
  rw [nthSeq_eq i (by omega), nthSeq_eq j hj]
  omega

theorem nthSeq_step (k : Nat) :
    nthSeq (k + 1) = (nthSeq k + (USIZE - 1)) % USIZE := by
  rfl

/-- Claim C10: the sequence counter of default_executor is a per-instance
size_t initialized to the maximum size_t value and pre-decremented on each
post: the first post of a fresh instance receives SIZE_MAX - 1, each later
post receives the previous value minus one modulo 2^64, and a freshly
constructed instance starts from the same member-initializer state as any
previous instance did and therefore reissues exactly the same sequence
values. -/
theorem c10_per_instance_counter :
    default_executor.mk0.order = SIZE_MAX ∧
    nthSeq 0 = SIZE_MAX - 1 ∧
    (∀ k : Nat, nthSeq (k + 1) = (nthSeq k + (USIZE - 1)) % USIZE) ∧
    (∀ (_prev : default_executor) (k : Nat),
      nthSeqFrom default_executor.mk0 k = nthSeq k) := by
  refine ⟨rfl, ?_, fun k => rfl, fun _ k => ?_⟩
  · have := nthSeq_eq 0 (by decide)
    rw [this]; decide
  · rw [nthSeqFrom, stepN_mk0]; rfl

/-- Modelled from the spec: a queued handler of the execution priority queue
(execution_priority_queue.hpp is not under src/).  The opaque task is
labelled by its post index idx; pri is the int priority passed to post and
seq the sequence number that `--order` produced for this post
(src/include/appbase/default_executor.hpp line 14). -/
@[ext]
structure Entry where
  pri : Int
  seq : Nat
  idx : Nat
  deriving DecidableEq

/-- Modelled from the spec: the strict ordering on (priority, sequence) keys
under which the queue hands out its maximum; a task compares greater when its
priority is higher, or at equal priority when its sequence number is larger
(earlier-enqueued tasks received larger sequence numbers). -/
def keyLt (a b : Entry) : Prop :=
  a.pri < b.pri ∨ (a.pri = b.pri ∧ a.seq < b.seq)

instance keyLtDec (a b : Entry) : Decidable (keyLt a b) := by
  unfold keyLt; exact inferInstance

theorem keyLt_irrefl (a : Entry) : ¬ keyLt a a := by
  unfold keyLt; omega

theorem keyLt_trans {a b c : Entry} (h1 : keyLt a b) (h2 : keyLt b c) :
    keyLt a c := by
  unfold keyLt at h1 h2 ⊢; omega

theorem keyGe_trans {a b c : Entry} (h1 : ¬ keyLt a b) (h2 : ¬ keyLt b c) :
    ¬ keyLt a c := by
  unfold keyLt at h1 h2 ⊢; omega

/-- Modelled from the spec: scanning selection of the maximum entry, as the
extraction-of-maximum of the thread-safe ordered container. -/
def selMax (m : Entry) : List Entry → Entry
  | [] => m
  | x :: xs => if keyLt m x then selMax x xs else selMax m xs

theorem selMax_mem (m : Entry) (l : List Entry) : selMax m l ∈ m :: l := by
  induction l generalizing m with
  | nil => simp [selMax]
  | cons x xs ih =>
    by_cases h : keyLt m x
    · have hx := ih x
      simp only [selMax, if_pos h]
      simp only [List.mem_cons] at hx ⊢
      tauto
    · have hx := ih m
      simp only [selMax, if_neg h]
      simp only [List.mem_cons] at hx ⊢
      tauto

theorem selMax_not_lt (m : Entry) (l : List Entry) :
    ∀ y ∈ m :: l, ¬ keyLt (selMax m l) y := by
  induction l generalizing m with
  | nil =>
    intro y hy
    simp only [List.mem_cons, List.not_mem_nil, or_false] at hy
    rw [hy]
    exact keyLt_irrefl m
  | cons x xs ih =>
    intro y hy
    simp only [List.mem_cons] at hy
    by_cases h : keyLt m x
    · simp only [selMax, if_pos h]
      rcases hy with hy | hy | hy
      · rw [hy]
        have hrx : ¬ keyLt (selMax x xs) x := ih x x (List.mem_cons_self x xs)
        intro hr
        exact hrx (keyLt_trans hr h)
      · rw [hy]
        exact ih x x (List.mem_cons_self x xs)
      · exact ih x y (List.mem_cons_of_mem x hy)
    · simp only [selMax, if_neg h]
      rcases hy with hy | hy | hy
      · rw [hy]
        exact ih m m (List.mem_cons_self m xs)
      · rw [hy]
        have hrm : ¬ keyLt (selMax m xs) m := ih m m (List.mem_cons_self m xs)
        exact keyGe_trans hrm h
      · exact ih m y (List.mem_cons_of_mem m hy)

/-- Modelled from the spec: draining the queue by repeatedly extracting and
removing the maximum entry (run_one / execute_highest applied until the
queue is empty); the first argument is fuel bounding the number of
extractions. -/
def drain : Nat → List Entry → List Entry
  | 0, _ => []
  | _ + 1, [] => []
  | f + 1, x :: xs => selMax x xs :: drain f ((x :: xs).erase (selMax x xs))

theorem drain_perm : ∀ (f : Nat) (l : List Entry), l.length ≤ f →
    (drain f l).Perm l := by
  intro f
  induction f with
  | zero =>
    intro l hl
    have : l = [] := List.eq_nil_of_length_eq_zero (Nat.le_zero.mp hl)
    rw [this]
    simp [drain]
  | succ n ih =>
    intro l hl
    match l with
    | [] => simp [drain]
    | x :: xs =>
      have hm : selMax x xs ∈ x :: xs := selMax_mem x xs
      have hlen : ((x :: xs).erase (selMax x xs)).length ≤ n := by
        rw [List.length_erase_of_mem hm]
        simpa using Nat.le_of_succ_le_succ hl
      have hperm := ih _ hlen
      exact (hperm.cons (selMax x xs)).trans (List.perm_cons_erase hm).symm

theorem drain_pairwise : ∀ (f : Nat) (l : List Entry), l.length ≤ f →
    (drain f l).Pairwise (fun a b => ¬ keyLt a b) := by
  intro f
  induction f with
  | zero => intro l _; simp [drain]
  | succ n ih =>
    intro l hl
    match l with
    | [] => simp [drain]
    | x :: xs =>
      have hm : selMax x xs ∈ x :: xs := selMax_mem x xs
      have hlen : ((x :: xs).erase (selMax x xs)).length ≤ n := by
        rw [List.length_erase_of_mem hm]
        simpa using Nat.le_of_succ_le_succ hl
      refine List.Pairwise.cons ?_ (ih _ hlen)
      intro y hy
      have hy2 : y ∈ (x :: xs).erase (selMax x xs) :=
        (drain_perm n _ hlen).mem_iff.mp hy
      exact selMax_not_lt x xs y (List.erase_subset _ _ hy2)

/-- The queue contents after posting the given list of priorities, in order,
on a fresh default_executor: the k-th post is wrapped with priority pris[k]
and the sequence number nthSeq k that `--order` produced
(src/include/appbase/default_executor.hpp lines 12-15). -/
def mkEntries (pris : List Int) : List Entry :=
  pris.enum.map (fun kp => ⟨kp.2, nthSeq kp.1, kp.1⟩)

/-- The order in which the posted tasks execute: the queue drained by
repeated extraction of the maximum, projected to post indices. -/
def runOrder (pris : List Int) : List Nat :=
  (drain (mkEntries pris).length (mkEntries pris)).map Entry.idx

/-- a occurs strictly before b in the list l. -/
def Before (l : List Nat) (a b : Nat) : Prop :=
  ∃ p q : Fin l.length, p < q ∧ l.get p = a ∧ l.get q = b

instance BeforeDec (l : List Nat) (a b : Nat) : Decidable (Before l a b) := by
  unfold Before; exact inferInstance

theorem mkEntries_length (pris : List Int) :
    (mkEntries pris).length = pris.length := by
  simp [mkEntries]

theorem mkEntries_get (pris : List Int) (k : Nat) (hk : k < pris.length)
    (hk2 : k < (mkEntries pris).length) :
    (mkEntries pris).get ⟨k, hk2⟩ = ⟨pris.get ⟨k, hk⟩, nthSeq k, k⟩ := by
  simp [mkEntries, List.get_eq_getElem]

theorem mkEntries_mem (pris : List Int) (k : Nat) (hk : k < pris.length) :
    (⟨pris.get ⟨k, hk⟩, nthSeq k, k⟩ : Entry) ∈ mkEntries pris := by
  have hk2 : k < (mkEntries pris).length := by
    rw [mkEntries_length]; exact hk
  rw [← mkEntries_get pris k hk hk2]
  exact List.get_mem _ _ _

theorem mem_mkEntries {pris : List Int} {e : Entry} (he : e ∈ mkEntries pris) :
    ∃ hk : e.idx < pris.length,
      e.seq = nthSeq e.idx ∧ e.pri = pris.get ⟨e.idx, hk⟩ := by
  rcases List.mem_iff_get.mp he with ⟨n, hn⟩
  have hkp : n.1 < pris.length := lt_of_lt_of_eq n.2 (mkEntries_length pris)
  rw [mkEntries_get pris n.1 hkp n.2] at hn
  rcases e with ⟨p, s, i⟩
  cases hn
  exact ⟨hkp, rfl, rfl⟩

theorem map_before {D : List Entry}
    (hpw : D.Pairwise (fun a b => ¬ keyLt a b))
    {ei ej : Entry} (hei : ei ∈ D) (hej : ej ∈ D) (hkey : keyLt ej ei) :
    Before (D.map Entry.idx) ei.idx ej.idx := by
  rcases List.mem_iff_get.mp hei with ⟨p, hp⟩
  rcases List.mem_iff_get.mp hej with ⟨q, hq⟩
  have hne : ei ≠ ej := by
    intro hcontra
    rw [hcontra] at hkey
    exact keyLt_irrefl ej hkey
  have hpq : p.1 < q.1 := by
    rcases Nat.lt_trichotomy p.1 q.1 with h | h | h
    · exact h
    · exfalso
      apply hne
      rw [← hp, ← hq]
      congr 1
      exact Fin.ext h
    · exfalso
      have hR := List.pairwise_iff_get.mp hpw q p (Fin.lt_def.mpr h)
      rw [hp, hq] at hR
      exact hR hkey
  have hplen : p.1 < (D.map Entry.idx).length := by
    rw [List.length_map]; exact p.2
  have hqlen : q.1 < (D.map Entry.idx).length := by
    rw [List.length_map]; exact q.2
  refine ⟨⟨p.1, hplen⟩, ⟨q.1, hqlen⟩, Fin.lt_def.mpr hpq, ?_, ?_⟩
  · rw [List.get_eq_getElem]
    rw [List.getElem_map]
    rw [List.get_eq_getElem] at hp
    rw [hp]
  · rw [List.get_eq_getElem]
    rw [List.getElem_map]
    rw [List.get_eq_getElem] at hq
    rw [hq]

theorem entry_before (pris : List Int) (i j : Nat)
    (hi : i < pris.length) (hj : j < pris.length)
    (hkey : keyLt ⟨pris.get ⟨j, hj⟩, nthSeq j, j⟩
                  ⟨pris.get ⟨i, hi⟩, nthSeq i, i⟩) :
    Before (runOrder pris) i j := by
  have hpw := drain_pairwise (mkEntries pris).length (mkEntries pris) le_rfl
  have hperm := drain_perm (mkEntries pris).length (mkEntries pris) le_rfl
  have hei := hperm.mem_iff.mpr (mkEntries_mem pris i hi)
  have hej := hperm.mem_iff.mpr (mkEntries_mem pris j hj)
  exact map_before hpw hei hej hkey

theorem mkEntries_map_idx (pris : List Int) :
    (mkEntries pris).map Entry.idx = List.range pris.length := by
  rw [mkEntries, List.map_map]
  have h : (Entry.idx ∘ fun kp : Nat × Int => (⟨kp.2, nthSeq kp.1, kp.1⟩ : Entry))
      = Prod.fst := rfl
  rw [h, List.enum_map_fst]

theorem mkEntries_nodup (pris : List Int) : (mkEntries pris).Nodup := by
  apply List.Nodup.of_map Entry.idx
  rw [mkEntries_map_idx]
  exact List.nodup_range _

theorem runOrder_perm (pris : List Int) :
    (runOrder pris).Perm (List.range pris.length) := by
  have h1 : (runOrder pris).Perm ((mkEntries pris).map Entry.idx) :=
    (drain_perm _ _ le_rfl).map Entry.idx
  rw [mkEntries_map_idx] at h1
  exact h1

theorem pairwise_idx_of_drain {E : List Entry} (hnodup : E.Nodup)
    (hfields : ∀ e ∈ E, e.idx ≤ USIZE - 2 ∧ e.seq = nthSeq e.idx)
    (hconst : ∀ a ∈ E, ∀ b ∈ E, a.pri = b.pri) :
    (drain E.length E).Pairwise (fun a b => a.idx < b.idx) := by
  have hD := drain_pairwise E.length E le_rfl
  have hDperm := drain_perm E.length E le_rfl
  have hnd : (drain E.length E).Nodup := hDperm.nodup_iff.mpr hnodup
  rw [List.pairwise_iff_get] at hD ⊢
  intro u v huv
  have hR := hD u v huv
  have hau : (drain E.length E).get u ∈ E :=
    hDperm.mem_iff.mp (List.get_mem _ _ _)
  have hav : (drain E.length E).get v ∈ E :=
    hDperm.mem_iff.mp (List.get_mem _ _ _)
  obtain ⟨hku, hsu⟩ := hfields _ hau
  obtain ⟨hkv, hsv⟩ := hfields _ hav
  have hpr := hconst _ hau _ hav
  rcases Nat.lt_trichotomy ((drain E.length E).get u).idx
      ((drain E.length E).get v).idx with h | h | h
  · exact h
  · exfalso
    have heq : (drain E.length E).get u = (drain E.length E).get v :=
      Entry.ext hpr (by rw [hsu, hsv, h]) h
    have huveq := List.nodup_iff_injective_get.mp hnd heq
    rw [huveq] at huv
    exact lt_irrefl _ huv
  · exfalso
    apply hR
    right
    refine ⟨hpr, ?_⟩
    rw [hsu, hsv]
    exact nthSeq_strict_anti h hku

theorem runOrder_const (n : Nat) (p : Int) (hn : n ≤ USIZE - 1) :
    runOrder (List.replicate n p) = List.range n := by
  have hlen : (List.replicate n p).length = n := List.length_replicate n p
  have hperm : (runOrder (List.replicate n p)).Perm (List.range n) := by
    have := runOrder_perm (List.replicate n p)
    rwa [hlen] at this
  have hfields : ∀ e ∈ mkEntries (List.replicate n p),
      e.idx ≤ USIZE - 2 ∧ e.seq = nthSeq e.idx := by
    intro e he
    rcases mem_mkEntries he with ⟨hk, hs, _⟩
    refine ⟨?_, hs⟩
    rw [hlen] at hk
    have := USIZE_pos
    omega
  have hconst : ∀ a ∈ mkEntries (List.replicate n p),
      ∀ b ∈ mkEntries (List.replicate n p), a.pri = b.pri := by
    intro a ha b hb
    rcases mem_mkEntries ha with ⟨hka, _, hpa⟩
    rcases mem_mkEntries hb with ⟨hkb, _, hpb⟩
    rw [hpa, hpb]
    simp [List.get_eq_getElem]
  have hidx := pairwise_idx_of_drain (mkEntries_nodup _) hfields hconst
  have hsorted : (runOrder (List.replicate n p)).Pairwise (· < ·) := by
    unfold runOrder
    rw [List.pairwise_map]
    exact hidx
  haveI : IsAntisymm Nat (· < ·) :=
    ⟨fun a b h1 h2 => absurd h2 (Nat.lt_asymm h1)⟩
  exact List.eq_of_perm_of_sorted hperm hsorted (List.sorted_lt_range n)

/-- Claim C3 (amended): the extraction operation always selects an entry of
maximal priority among the entries present in the queue, and for every pair
of posts at priorities p1 strictly greater than p2, the task posted at p1
runs before the task posted at p2 regardless of the interleaved post order.
(The original claim with p1 greater or equal fails when p1 equals p2, where
FIFO order within the priority band decides.) -/
theorem c3_priority_ordering :
    (∀ (x : Entry) (xs : List Entry), ∀ y ∈ x :: xs,
      y.pri ≤ (selMax x xs).pri) ∧
    (∀ (pris : List Int) (i j : Nat) (hi : i < pris.length)
      (hj : j < pris.length),
      pris.get ⟨j, hj⟩ < pris.get ⟨i, hi⟩ → Before (runOrder pris) i j) := by
  constructor
  · intro x xs y hy
    have h := selMax_not_lt x xs y hy
    unfold keyLt at h
    omega
  · intro pris i j hi hj hp
    exact entry_before pris i j hi hj (Or.inl hp)

/-- Claim C3 witness: posting priority 3 then priority 7, the later task
(index 1, higher priority) runs before the earlier one. -/
theorem c3_priority_ordering_witness : Before (runOrder [3, 7]) 1 0 :=
  c3_priority_ordering.2 [3, 7] 1 0 (by norm_num) (by norm_num) (by decide)

/-- Claim C3 counterexample: two posts both at priority 5, so p1 = 5 and
p2 = 5 satisfy p1 greater or equal p2, but the task posted at p1 (index 1)
does not run before the task posted at p2 (index 0): the execution order is
[0, 1] by FIFO within the band. -/
theorem c3_counterexample :
    (5 : Int) ≥ 5 ∧ runOrder [5, 5] = [0, 1] ∧
      ¬ Before (runOrder [5, 5]) 1 0 := by
  refine ⟨le_refl _, rfl, ?_⟩
  have h : runOrder [5, 5] = [0, 1] := rfl
  rw [h]
  decide

/-- Claim C4: for every sequence of posts, among equal-priority tasks the
first-posted task runs first, and for a sequence of posts all at one
priority the execution order equals the post order (as long as fewer than
2^64 posts are made, so that the sequence counter does not wrap). -/
theorem c4_fifo_within_priority :
    (∀ (pris : List Int) (i j : Nat) (hi : i < pris.length)
      (hj : j < pris.length), pris.length ≤ USIZE - 1 → i < j →
      pris.get ⟨i, hi⟩ = pris.get ⟨j, hj⟩ → Before (runOrder pris) i j) ∧
    (∀ (n : Nat) (p : Int), n ≤ USIZE - 1 →
      runOrder (List.replicate n p) = List.range n) := by
  constructor
  · intro pris i j hi hj hlen hij hp
    apply entry_before pris i j hi hj
    right
    refine ⟨hp.symm, ?_⟩
    apply nthSeq_strict_anti hij
    have := USIZE_pos
    omega
  · exact runOrder_const

/-- Claim C4 witness: in the mixed sequence of priorities
[5, 5, 9, 5, 9] the equal-priority tasks 1 and 3 run in post order, and
three posts all at priority 5 execute exactly in post order [0, 1, 2]. -/
theorem c4_fifo_within_priority_witness :
    Before (runOrder [5, 5, 9, 5, 9]) 1 3 ∧
      runOrder (List.replicate 3 (5 : Int)) = List.range 3 := by
  constructor
  · apply c4_fifo_within_priority.1 [5, 5, 9, 5, 9] 1 3 (by norm_num)
      (by norm_num)
    · show (5 : Nat) ≤ USIZE - 1
      norm_num [USIZE]
    · norm_num
    · decide
  · apply c4_fifo_within_priority.2 3 5
    show (3 : Nat) ≤ USIZE - 1
    norm_num [USIZE]

/-- Modelled from the spec: the invocation order of one shutdown pass of the
Application Controller (application_base.hpp is not under src/).  Plugins
are identified by their position 0..n-1 in the resolved startup order; the
pass walks the exact reverse of that order and invokes plugin_shutdown on
each plugin once. -/
def shutdownLog (n : Nat) : List Nat := (List.range n).reverse

/-- Modelled from the spec: the first exception thrown by a
plugin_shutdown handler during the pass, in pass order; sh lists, for each
plugin in startup order, the exception its plugin_shutdown throws, if any.
Handler exceptions are caught and logged so iteration continues. -/
def firstShutdownExn (sh : List (Option String)) : Option String :=
  (shutdownLog sh.length).foldl
    (fun acc i =>
      match acc with
      | some e => some e
      | none => sh.getD i none)
    none

/-- Modelled from the spec: the outcome of exec().  If an exception escapes
a posted task, exec catches it, performs one shutdown pass over all started
plugins, and after the pass re-throws the original exception; on a normal
quit the shutdown pass runs and, with no originating task exception, the
first shutdown-handler exception (if any) is surfaced.  The result pairs
the plugin_shutdown invocation log with the exception surfaced to the
caller of exec(). -/
def execOutcome (taskExn : Option String) (sh : List (Option String)) :
    List Nat × Option String :=
  (shutdownLog sh.length,
   match taskExn with
   | some e => some e
   | none => firstShutdownExn sh)

theorem shutdownLog_count (n i : Nat) :
    (shutdownLog n).count i = if i < n then 1 else 0 := by
  unfold shutdownLog
  rw [List.count_reverse]
  by_cases h : i < n
  · rw [if_pos h]
    exact List.count_eq_one_of_mem (List.nodup_range n) (List.mem_range.mpr h)
  · rw [if_neg h]
    exact List.count_eq_zero_of_not_mem (fun hc => h (List.mem_range.mp hc))

/-- Claim C1: when an exception e escapes a posted task, exec catches it,
performs exactly one shutdown pass in which plugin_shutdown is invoked
exactly once on each of the started plugins (walking the reverse startup
order once), and after the pass completes re-throws the original task
exception to the caller of exec(). -/
theorem c1_task_exception_shutdown_and_rethrow :
    ∀ (e : String) (sh : List (Option String)),
      (execOutcome (some e) sh).2 = some e ∧
      (execOutcome (some e) sh).1 = (List.range sh.length).reverse ∧
      (∀ i : Nat, (execOutcome (some e) sh).1.count i
        = if i < sh.length then 1 else 0) :=
  fun _ sh => ⟨rfl, rfl, fun i => shutdownLog_count sh.length i⟩

/-- Claim C2: even when plugin_shutdown handlers throw, the shutdown pass
still invokes plugin_shutdown exactly once on every started plugin (the
handler exception is caught and iteration continues); the exception
surfaced from exec() is the originating task exception when one exists,
and otherwise the first shutdown-handler exception. -/
theorem c2_shutdown_exception_containment :
    ∀ (sh : List (Option String)) (taskExn : Option String),
      (execOutcome taskExn sh).1 = (List.range sh.length).reverse ∧
      (∀ i : Nat, (execOutcome taskExn sh).1.count i
        = if i < sh.length then 1 else 0) ∧
      (∀ e : String, taskExn = some e → (execOutcome taskExn sh).2 = some e) ∧
      (taskExn = none → (execOutcome taskExn sh).2 = firstShutdownExn sh) := by
  intro sh taskExn
  refine ⟨rfl, fun i => shutdownLog_count sh.length i, ?_, ?_⟩
  · intro e he
    rw [he]
    rfl
  · intro he
    rw [he]
    rfl

/-- Claim C2 witness: the two-plugin scenario of the exception_in_shutdown
test, pluginA at startup position 0 and pluginB at position 1 with a
throwing shutdown handler: the pass visits plugin 1 then plugin 0 (both
exactly once, so the shared counter reaches 2), and the surfaced exception
is the original task exception, not the handler exception. -/
theorem c2_shutdown_exception_containment_witness :
    (execOutcome (some "throwing in pluginA")
      [none, some "throwing in shutdown"]).1 = [1, 0] ∧
    (execOutcome (some "throwing in pluginA")
      [none, some "throwing in shutdown"]).2
      = some "throwing in pluginA" := by
  have h := c2_shutdown_exception_containment
    [none, some "throwing in shutdown"] (some "throwing in pluginA")
  exact ⟨by rw [h.1]; rfl, h.2.2.1 "throwing in pluginA" rfl⟩

/-- Modelled from the spec: a run of the executor in which total tasks were
posted (and queued) and a quit request is processed after k of them have
started: tasks execute one at a time in queue order; quit sets the stop
flag and clears the queue of not-yet-started tasks, so no task queued
before the quit request starts after it.  The value is the list of post
indices that actually executed. -/
def execUntilQuit (total k : Nat) : List Nat := List.range (min k total)

/-- The number of tasks still queued at the moment the quit request is
processed. -/
def tasksQueuedAtQuit (total k : Nat) : Nat := total - min k total

/-- Claim C5 counterexample: three tasks are posted and two of them have
already executed when the quit request is processed, so N = 1 task is
queued at quit(); the number of tasks that actually executed is 2, which is
not strictly less than N = 1.  (Strictly-less-than-N holds only when every
posted task is still queued at the quit, as in the queue_emptied_at_quit
test.) -/
theorem c5_counterexample :
    tasksQueuedAtQuit 3 2 = 1 ∧ (execUntilQuit 3 2).length = 2 ∧
      ¬ (execUntilQuit 3 2).length < tasksQueuedAtQuit 3 2 := by
  refine ⟨rfl, ?_, ?_⟩ <;> simp [execUntilQuit, tasksQueuedAtQuit]

/-- Claim C5 (amended): when the quit request is processed with N tasks
still queued, clear() discards all not-yet-started tasks without executing
them and runs strictly before any of those N tasks can start, so none of
them ever executes; the number of tasks that actually execute equals the
number posted minus N, is never negative, never greater than the number
posted, and strictly less than the number posted whenever N is at least 1;
in particular it is strictly less than N when all posted tasks are still
queued at the quit. -/
theorem c5_quit_discards_queued (total k : Nat) (hk : k ≤ total) :
    (∀ i : Nat, i ∈ execUntilQuit total k ↔ i < k) ∧
    (∀ i : Nat, k ≤ i → i < total → i ∉ execUntilQuit total k) ∧
    (execUntilQuit total k).length = total - tasksQueuedAtQuit total k ∧
    (execUntilQuit total k).length ≤ total ∧
    (1 ≤ tasksQueuedAtQuit total k →
      (execUntilQuit total k).length < total) ∧
    (tasksQueuedAtQuit total k = total → 1 ≤ total →
      (execUntilQuit total k).length < tasksQueuedAtQuit total k) := by
  have hmin : min k total = k := Nat.min_eq_left hk
  unfold execUntilQuit tasksQueuedAtQuit
  rw [hmin]
  refine ⟨fun i => List.mem_range, ?_, ?_, ?_, ?_, ?_⟩
  · intro i hki _ hmem
    exact absurd (List.mem_range.mp hmem) (by omega)
  · rw [List.length_range]
    omega
  · rw [List.length_range]
    omega
  · rw [List.length_range]
    omega
  · rw [List.length_range]
    omega

/-- Claim C5 witness: 100 tasks posted, quit processed before any of them
starts (the queue_emptied_at_quit scenario): N = 100 are queued, none of
them executes, and the executed count 0 is strictly less than N. -/
theorem c5_quit_discards_queued_witness :
    (7 ∉ execUntilQuit 100 0) ∧
      (execUntilQuit 100 0).length < tasksQueuedAtQuit 100 0 := by
  have h := c5_quit_discards_queued 100 0 (by omega)
  refine ⟨h.2.1 7 (by omega) (by omega), ?_⟩
  exact h.2.2.2.2.2 (by rfl) (by omega)

mutual
/-- Modelled from the spec: depth-first resolution of the plugin dependency
graph (the Application Controller and registry headers are not under src/).
Plugins are identified by Nat and deps gives each plugin its declared
dependency list.  visit traverses one node: a node already in the output is
skipped; a node on the in-progress (gray) path is a cyclic-dependency
error; otherwise its dependencies are visited first and the node is then
appended to the output.  fuel bounds the recursion depth and running out of
fuel is reported as an error. -/
def visit (deps : Nat → List Nat) : Nat → List Nat → List Nat → Nat →
    Except Unit (List Nat)
  | 0, _, _, _ => Except.error ()
  | fuel + 1, gray, out, n =>
    if n ∈ out then Except.ok out
    else if n ∈ gray then Except.error ()
    else
      match visitList deps fuel (n :: gray) out (deps n) with
      | Except.error e => Except.error e
      | Except.ok out2 => Except.ok (out2 ++ [n])
termination_by fuel _ _ _ => (fuel, 0)

/-- Modelled from the spec: traversal of a list of nodes left to right,
threading the accumulated output through visit. -/
def visitList (deps : Nat → List Nat) : Nat → List Nat → List Nat →
    List Nat → Except Unit (List Nat)
  | _, _, out, [] => Except.ok out
  | fuel, gray, out, d :: ds =>
    match visit deps fuel gray out d with
    | Except.error e => Except.error e
    | Except.ok out2 => visitList deps fuel gray out2 ds
termination_by fuel _ _ ds => (fuel, ds.length + 1)
end

/-- Modelled from the spec: the resolver expands the root set into the full
dependency-closed, topologically ordered plugin list; the caller supplies
fuel larger than the number of plugins. -/
def resolve (deps : Nat → List Nat) (roots : List Nat) (fuel : Nat) :
    Except Unit (List Nat) :=
  visitList deps fuel [] [] roots

/-- out is a topological order for deps: every element is preceded by all
of its declared dependencies. -/
def GoodOut (deps : Nat → List Nat) (out : List Nat) : Prop :=
  ∀ l1 x l2, out = l1 ++ x :: l2 → ∀ d ∈ deps x, d ∈ l1

theorem goodOut_nil (deps : Nat → List Nat) : GoodOut deps [] := by
  intro l1 x l2 heq d _
  exfalso
  have := congrArg List.length heq
  simp at this
  omega

theorem append_singleton_split {out l1 l2 : List Nat} {x n : Nat}
    (h : out ++ [n] = l1 ++ x :: l2) :
    (l1 = out ∧ x = n ∧ l2 = []) ∨
      (∃ l2h, out = l1 ++ x :: l2h ∧ l2 = l2h ++ [n]) := by
  rcases List.eq_nil_or_concat l2 with hnil | ⟨l2h, last, hcon⟩
  · left
    rw [hnil] at h
    have hlen : out.length = l1.length := by
      have := congrArg List.length h
      simp at this
      omega
    have := List.append_inj h hlen
    rcases this with ⟨h1, h2⟩
    injection h2 with h3 h4
    exact ⟨h1.symm, h3.symm, hnil⟩
  · right
    rw [List.concat_eq_append] at hcon
    rw [hcon] at h
    have hre : l1 ++ x :: (l2h ++ [last]) = (l1 ++ x :: l2h) ++ [last] := by
      simp
    rw [hre] at h
    have hlen : out.length = (l1 ++ x :: l2h).length := by
      have := congrArg List.length h
      simp at this
      simp
      omega
    have := List.append_inj h hlen
    rcases this with ⟨h1, h2⟩
    injection h2 with h3 _
    refine ⟨l2h, h1, ?_⟩
    rw [hcon, h3]

theorem goodOut_append {deps : Nat → List Nat} {out : List Nat} {n : Nat}
    (hg : GoodOut deps out) (hd : ∀ d ∈ deps n, d ∈ out) :
    GoodOut deps (out ++ [n]) := by
  intro l1 x l2 heq d hdm
  rcases append_singleton_split heq with ⟨h1, h2, _⟩ | ⟨l2h, h1, _⟩
  · rw [h1]
    rw [h2] at hdm
    exact hd d hdm
  · exact hg l1 x l2h h1 d hdm

theorem resolver_spec (deps : Nat → List Nat) : ∀ fuel : Nat,
    (∀ gray out n out2,
      visit deps fuel gray out n = Except.ok out2 →
      GoodOut deps out → out.Nodup → (∀ g ∈ gray, g ∉ out) →
      GoodOut deps out2 ∧ out2.Nodup ∧ (∀ a ∈ out, a ∈ out2) ∧
        (∀ g ∈ gray, g ∉ out2) ∧ n ∈ out2) ∧
    (∀ gray out ds out2,
      visitList deps fuel gray out ds = Except.ok out2 →
      GoodOut deps out → out.Nodup → (∀ g ∈ gray, g ∉ out) →
      GoodOut deps out2 ∧ out2.Nodup ∧ (∀ a ∈ out, a ∈ out2) ∧
        (∀ g ∈ gray, g ∉ out2) ∧ (∀ d ∈ ds, d ∈ out2)) := by
  intro fuel
  induction fuel with
  | zero =>
    constructor
    · intro gray out n out2 h
      simp [visit] at h
    · intro gray out ds out2 h hGood hNodup hgray
      cases ds with
      | nil =>
        simp only [visitList] at h
        injection h with h2
        rw [← h2]
        exact ⟨hGood, hNodup, fun a ha => ha, hgray, by simp⟩
      | cons d ds2 =>
        simp [visitList, visit] at h
  | succ f ih =>
    have hvisit : ∀ gray out n out2,
        visit deps (f + 1) gray out n = Except.ok out2 →
        GoodOut deps out → out.Nodup → (∀ g ∈ gray, g ∉ out) →
        GoodOut deps out2 ∧ out2.Nodup ∧ (∀ a ∈ out, a ∈ out2) ∧
          (∀ g ∈ gray, g ∉ out2) ∧ n ∈ out2 := by
      intro gray out n out2 h hGood hNodup hgray
      simp only [visit] at h
      by_cases h1 : n ∈ out
      · simp only [if_pos h1] at h
        injection h with h2
        rw [← h2]
        exact ⟨hGood, hNodup, fun a ha => ha, hgray, h1⟩
      · by_cases h2 : n ∈ gray
        · simp only [if_neg h1, if_pos h2] at h
          simp at h
        · simp only [if_neg h1, if_neg h2] at h
          cases hv : visitList deps f (n :: gray) out (deps n) with
          | error e =>
            rw [hv] at h
            simp at h
          | ok m =>
            rw [hv] at h
            injection h with h3
            have hpre : ∀ g ∈ n :: gray, g ∉ out := by
              intro g hg
              rcases List.mem_cons.mp hg with hg | hg
              · rw [hg]; exact h1
              · exact hgray g hg
            have spec := (ih).2 (n :: gray) out (deps n) m hv hGood hNodup hpre
            rcases spec with ⟨sGood, sNodup, sMono, sGray, sDeps⟩
            have hnm : n ∉ m := sGray n (List.mem_cons_self n gray)
            rw [← h3]
            refine ⟨goodOut_append sGood sDeps, ?_, ?_, ?_, ?_⟩
            · exact (List.perm_append_singleton n m).nodup_iff.mpr
                (List.nodup_cons.mpr ⟨hnm, sNodup⟩)
            · intro a ha
              exact List.mem_append.mpr (Or.inl (sMono a ha))
            · intro g hg
              have hg2 := sGray g (List.mem_cons_of_mem n hg)
              have hgn : g ≠ n := by
                intro hc
                rw [hc] at hg
                exact h2 hg
              intro hc
              rcases List.mem_append.mp hc with hc | hc
              · exact hg2 hc
              · exact hgn (List.mem_singleton.mp hc)
            · exact List.mem_append.mpr (Or.inr (List.mem_singleton.mpr rfl))
    refine ⟨hvisit, ?_⟩
    intro gray0 out0 ds0
    induction ds0 generalizing gray0 out0 with
    | nil =>
      intro out2 h hGood hNodup hgray
      simp only [visitList] at h
      injection h with h2
      rw [← h2]
      exact ⟨hGood, hNodup, fun a ha => ha, hgray, by simp⟩
    | cons d ds2 ihds =>
      intro out2 h hGood hNodup hgray
      simp only [visitList] at h
      cases hv : visit deps (f + 1) gray0 out0 d with
      | error e =>
        rw [hv] at h
        simp at h
      | ok m =>
        rw [hv] at h
        have spec1 := hvisit gray0 out0 d m hv hGood hNodup hgray
        rcases spec1 with ⟨g1, n1, mono1, gr1, hd1⟩
        have spec2 := ihds gray0 m out2 h g1 n1 gr1
        rcases spec2 with ⟨g2, n2, mono2, gr2, hds2⟩
        refine ⟨g2, n2, fun a ha => mono2 a (mono1 a ha), gr2, ?_⟩
        intro d2 hd2
        rcases List.mem_cons.mp hd2 with hd2 | hd2
        · rw [hd2]
          exact mono2 d hd1
        · exact hds2 d2 hd2

theorem before_of_append {l1 l2 : List Nat} {a b : Nat} (ha : a ∈ l1) :
    Before (l1 ++ b :: l2) a b := by
  rcases List.mem_iff_get.mp ha with ⟨p, hp⟩
  have hplen : p.1 < (l1 ++ b :: l2).length := by
    rw [List.length_append]
    have h2 := p.2
    simp only [List.length_cons]
    omega
  have hblen : l1.length < (l1 ++ b :: l2).length := by
    rw [List.length_append]
    simp only [List.length_cons]
    omega
  refine ⟨⟨p.1, hplen⟩, ⟨l1.length, hblen⟩, Fin.lt_def.mpr p.2, ?_, ?_⟩
  · rw [List.get_eq_getElem] at hp ⊢
    rw [List.getElem_append_left p.2]
    exact hp
  · rw [List.get_eq_getElem]
    rw [List.getElem_append_right (Nat.le_refl l1.length)]
    simp

theorem before_of_append2 {l1 l2 : List Nat} {a b : Nat} (hb : b ∈ l2) :
    Before (l1 ++ a :: l2) a b := by
  rcases List.mem_iff_get.mp hb with ⟨p, hp⟩
  have hplen : l1.length + 1 + p.1 < (l1 ++ a :: l2).length := by
    rw [List.length_append]
    have h2 := p.2
    simp only [List.length_cons]
    omega
  have halen : l1.length < (l1 ++ a :: l2).length := by
    rw [List.length_append]
    simp only [List.length_cons]
    omega
  refine ⟨⟨l1.length, halen⟩, ⟨l1.length + 1 + p.1, hplen⟩, ?_, ?_, ?_⟩
  · exact Fin.lt_def.mpr (show l1.length < l1.length + 1 + p.1 by omega)
  · rw [List.get_eq_getElem]
    rw [List.getElem_append_right (Nat.le_refl l1.length)]
    simp
  · rw [List.get_eq_getElem] at hp ⊢
    rw [List.getElem_append_right (by omega : l1.length ≤ l1.length + 1 + p.1)]
    have hidx : l1.length + 1 + p.1 - l1.length = p.1 + 1 := by omega
    simp only [hidx]
    rw [List.getElem_cons_succ]
    exact hp

/-- Claim C6: for every dependency graph and root set on which resolution
succeeds, the startup order is a valid topological order of the declared
dependency graph and the shutdown order is its exact reverse: whenever
plugin b depends on plugin a, a is started strictly before b and, in the
reversed shutdown order, b is shut down strictly before a; the resolved
order also contains every root. -/
theorem c6_topo_startup_reverse_shutdown
    (deps : Nat → List Nat) (roots : List Nat) (fuel : Nat)
    (ord : List Nat) (hres : resolve deps roots fuel = Except.ok ord)
    (b : Nat) (hb : b ∈ ord) (a : Nat) (ha : a ∈ deps b) :
    Before ord a b ∧ Before ord.reverse b a ∧ ∀ r ∈ roots, r ∈ ord := by
  have spec := (resolver_spec deps fuel).2 [] [] roots ord hres
    (goodOut_nil deps) List.nodup_nil (by intro g hg; simp at hg)
  rcases spec with ⟨sGood, _, _, _, sRoots⟩
  rcases List.append_of_mem hb with ⟨s, t, hdecomp⟩
  have haIn : a ∈ s := sGood s b t hdecomp a ha
  refine ⟨?_, ?_, sRoots⟩
  · rw [hdecomp]
    exact before_of_append haIn
  · rw [hdecomp]
    have hsh : (s ++ b :: t).reverse = t.reverse ++ b :: s.reverse := by
      simp
    rw [hsh]
    exact before_of_append2 (List.mem_reverse.mpr haIn)

/-- Claim C6 witness: the two-plugin chain of the tests (pluginB requires
pluginA; ids: pluginA = 0, pluginB = 1; the user selects pluginB): the
resolved order is [0, 1], so A starts before B and, in the reversed
shutdown order, B stops before A. -/
theorem c6_topo_witness :
    Before [0, 1] 0 1 ∧ Before ([0, 1] : List Nat).reverse 1 0 ∧
      ∀ r ∈ ([1] : List Nat), r ∈ ([0, 1] : List Nat) :=
  c6_topo_startup_reverse_shutdown (fun n => if n = 1 then [0] else [])
    [1] 3 [0, 1] (by simp [resolve, visitList, visit]) 1 (by decide) 0
    (by decide)

/-- Claim C7 counterexample: the order counter is a member of each
default_executor instance, not process-wide: after the first instance has
issued its first sequence number, a second, freshly constructed instance
issues exactly the same value for its first post, so the values issued
across the process are not produced by one monotonically decreasing
process-wide counter (they neither keep decreasing nor stay distinct across
instances). -/
theorem c7_counterexample :
    nthSeqFrom default_executor.mk0 0 = nthSeq 0 ∧
      ¬ nthSeqFrom default_executor.mk0 0 < nthSeq 0 := by
  refine ⟨rfl, ?_⟩
  intro h
  rw [show nthSeqFrom default_executor.mk0 0 = nthSeq 0 from rfl] at h
  exact lt_irrefl _ h

/-- Claim C7 (amended): sequence numbers are assigned at enqueue time from
the executor instance's own monotonically decreasing counter; as long as
fewer than 2^64 posts are made on one instance they never repeat, so at
equal priority an earlier-enqueued task always compares greater than a
later one under the extraction ordering and the (priority, sequence) order
has no ties. -/
theorem c7_per_instance_ordering (i j : Nat) (hij : i < j)
    (hj : j ≤ USIZE - 2) :
    nthSeq j < nthSeq i ∧ nthSeq i ≠ nthSeq j ∧
      (∀ p : Int, keyLt ⟨p, nthSeq j, j⟩ ⟨p, nthSeq i, i⟩) ∧
      (∀ p : Int, ¬ keyLt ⟨p, nthSeq i, i⟩ ⟨p, nthSeq j, j⟩) := by
  have h := nthSeq_strict_anti hij hj
  refine ⟨h, by omega, fun p => Or.inr ⟨rfl, h⟩, fun p => ?_⟩
  unfold keyLt
  simp only
  omega

/-- Claim C7 witness: the first two posts of one instance: the second gets
a strictly smaller sequence number, so at equal priority the first-posted
entry compares greater. -/
theorem c7_per_instance_ordering_witness :
    nthSeq 1 < nthSeq 0 ∧ nthSeq 0 ≠ nthSeq 1 ∧
      (∀ p : Int, keyLt ⟨p, nthSeq 1, 1⟩ ⟨p, nthSeq 0, 0⟩) ∧
      (∀ p : Int, ¬ keyLt ⟨p, nthSeq 0, 0⟩ ⟨p, nthSeq 1, 1⟩) :=
  c7_per_instance_ordering 0 1 (by norm_num) (by norm_num [USIZE])

/-- Plugin lifecycle states, as exposed by get_state. -/
inductive PState where
  | registered
  | optionDeclared
  | initialized
  | started
  | stopped
  deriving DecidableEq

/-- A registry record for one plugin: its lifecycle state and the
shutdown-counter cell the tests attach to it. -/
structure PluginRec where
  state : PState
  counter : Nat
  deriving DecidableEq

/-- Modelled from the spec: the teardown the scope-bound wrapper performs
on every exit path (application.hpp with scoped_app is not under src/):
the registry is reset, leaving every plugin record in the registered state
with a fresh counter. -/
def resetRegistry (reg : List PluginRec) : List PluginRec :=
  reg.map (fun _ => ⟨PState.registered, 0⟩)

/-- Modelled from the spec: one scoped Application run: construct an
Application over the registry with a fresh executor, run the body (which
may mutate the registry and the executor, and may produce an error), and
tear down on every exit path: the registry is reset and the executor
destroyed, so the next Application construction sees the reset registry
and a newly constructed executor. -/
def scopedRun (reg : List PluginRec)
    (body : List PluginRec × default_executor →
      (List PluginRec × default_executor) × Option String) :
    (List PluginRec × default_executor) × Option String :=
  ((resetRegistry (body (reg, default_executor.mk0)).1.1,
    default_executor.mk0),
   (body (reg, default_executor.mk0)).2)

/-- Claim C8: two Application instances constructed and fully torn down
sequentially share no state: whatever the first instance's body did to the
registry and the executor and however it exited (normally or with an
error), after the scope-bound teardown every plugin record is back in the
registered state with an independent zeroed counter and the second
instance starts with a freshly constructed executor that reissues the same
sequence values as a fresh first instance did. -/
theorem c8_sequential_instances_no_leak :
    ∀ (reg : List PluginRec)
      (body : List PluginRec × default_executor →
        (List PluginRec × default_executor) × Option String),
      (∀ rec2 ∈ (scopedRun reg body).1.1,
        rec2 = ⟨PState.registered, 0⟩) ∧
      (scopedRun reg body).1.1.length
        = (body (reg, default_executor.mk0)).1.1.length ∧
      (scopedRun reg body).1.2 = default_executor.mk0 ∧
      (∀ k : Nat, nthSeqFrom (scopedRun reg body).1.2 k = nthSeq k) := by
  intro reg body
  refine ⟨?_, ?_, rfl, ?_⟩
  · intro rec2 hrec
    rcases List.mem_map.mp hrec with ⟨_, _, hmap⟩
    exact hmap.symm
  · exact List.length_map _ _
  · intro k
    show nthSeqFrom default_executor.mk0 k = nthSeq k
    rw [nthSeqFrom, stepN_mk0]
    rfl

/-- The resolved option values handed to plugin_initialize, as the external
option system produces them for the options declared by pluginA and
pluginB in src/tests/basic_test.cpp: occurrence counts for the flags and
typed values for the value options. -/
structure variables_map where
  readonly_count : Nat
  replay_count : Nat
  log_count : Nat
  log2_count : Nat
  throw_count : Nat
  dbsize : Nat
  endpoint : String

/-- pluginA state: the member initializers of src/tests/basic_test.cpp
lines 59-63 give the values before plugin_initialize runs. -/
structure pluginA where
  readonly_ : Bool
  replay_ : Bool
  log_ : Bool
  dbsize_ : Nat

/-- A pluginA as constructed: readonly_, replay_, log_ false and
dbsize_ 0. -/
def pluginA.fresh : pluginA := ⟨false, false, false, 0⟩

/-- pluginA::plugin_initialize (src/tests/basic_test.cpp lines 33-39):
flags become the double-negated occurrence counts and dbsize_ the typed
uint64 option value. -/
def pluginA.plugin_initialize (options : variables_map) : pluginA :=
  ⟨options.readonly_count != 0, options.replay_count != 0,
   options.log_count != 0, options.dbsize⟩

/-- pluginA::dbsize accessor (src/tests/basic_test.cpp line 47). -/
def pluginA.dbsize (p : pluginA) : Nat := p.dbsize_

/-- pluginA::readonly accessor (src/tests/basic_test.cpp line 48). -/
def pluginA.readonly (p : pluginA) : Bool := p.readonly_

/-- pluginB state (src/tests/basic_test.cpp lines 108-111): endpoint_ is a
default-constructed (empty) string before plugin_initialize runs. -/
structure pluginB where
  log_ : Bool
  throw_ : Bool
  endpoint_ : String

/-- A pluginB as constructed. -/
def pluginB.fresh : pluginB := ⟨false, false, ""⟩

/-- pluginB::plugin_initialize (src/tests/basic_test.cpp lines 84-89):
endpoint_ receives the typed string option verbatim; note the source reads
the count of the option named log, not log2. -/
def pluginB.plugin_initialize (options : variables_map) : pluginB :=
  ⟨options.log_count != 0, options.throw_count != 0, options.endpoint⟩

/-- pluginB::endpoint accessor (src/tests/basic_test.cpp line 96). -/
def pluginB.endpoint (p : pluginB) : String := p.endpoint_

/-- The variables_map the external option system resolves for the
program_options test command line: --readonly --replay --dbsize 10000
--endpoint 127.0.0.1:55 --throw, with defaults elsewhere. -/
def testOptions : variables_map := ⟨1, 1, 0, 0, 1, 10000, "127.0.0.1:55"⟩

/-- Claim C9: option values are visible, correctly typed, inside
plugin_initialize and nowhere earlier: before initialization pluginA
observes dbsize 0 and readonly false and pluginB an empty endpoint, while
after plugin_initialize the typed dbsize and the verbatim endpoint string
of the resolved map are observed; for the program_options test command
line the dbsize 10000 and endpoint 127.0.0.1:55 are seen. -/
theorem c9_options_typed_in_initialize :
    (∀ options : variables_map,
      (pluginA.plugin_initialize options).dbsize = options.dbsize ∧
      (pluginA.plugin_initialize options).readonly
        = (options.readonly_count != 0) ∧
      (pluginB.plugin_initialize options).endpoint = options.endpoint) ∧
    pluginA.fresh.dbsize = 0 ∧
    pluginA.fresh.readonly = false ∧
    pluginB.fresh.endpoint = "" ∧
    (pluginA.plugin_initialize testOptions).dbsize = 10000 ∧
    (pluginA.plugin_initialize testOptions).readonly = true ∧
    (pluginB.plugin_initialize testOptions).endpoint = "127.0.0.1:55" :=
  ⟨fun _ => ⟨rfl, rfl, rfl⟩, rfl, rfl, rfl, rfl, rfl, rfl⟩
